import Mathlib

/-!
Verification development for the retrieval core of the strudel-ai repository
(src/embeddings.py).  The numeric code is shallowly embedded: IEEE floats are
modelled by rationals extended with a NaN element, the numpy operations used by
the source (elementwise arithmetic, Euclidean norm, dot product, argsort,
slicing) are translated to executable Lean functions, and the stateful
`PatternSearcher` is modelled by explicit state passing over a `World` record
that also tracks the persisted cache file and a provider-call counter.
-/

namespace StrudelAI

/-- Model of an IEEE-754 double as used by the numeric code: either NaN or an
exact value (a rational).  The arithmetic performed by `cosine_similarity` on
the inputs appearing in this development is exact in double precision, so the
value case carries a rational.  Division by zero only ever occurs in the source
with a zero numerator (a zero Euclidean norm forces a zero vector), so the
`0/0 = NaN` case is the one modelled; the never-reached `x/0` with `x` nonzero
is folded into NaN as well. -/
inductive F where
  | nan : F
  | val : ℚ → F
deriving DecidableEq

/-- Rational addition, written with `mkRat` so that the kernel can evaluate it
(the library's `Rat.add` is irreducible); `qAdd_eq` below proves it is exactly
Mathlib's addition on `ℚ`. -/
def qAdd (a b : ℚ) : ℚ := mkRat (a.num * b.den + b.num * a.den) (a.den * b.den)

/-- Rational multiplication via `mkRat`; equal to `*` by `qMul_eq`. -/
def qMul (a b : ℚ) : ℚ := mkRat (a.num * b.num) (a.den * b.den)

/-- Rational division via `Rat.divInt`; equal to `/` by `qDiv_eq` whenever the
divisor is nonzero (the only case reachable below, the zero divisor being
mapped to NaN first). -/
def qDiv (a b : ℚ) : ℚ := Rat.divInt (a.num * b.den) (a.den * b.num)

theorem qAdd_eq (a b : ℚ) : qAdd a b = a + b := (Rat.add_def' a b).symm

theorem qMul_eq (a b : ℚ) : qMul a b = a * b := by
  unfold qMul
  rw [Rat.mul_def, Rat.normalize_eq_mkRat]

theorem qDiv_eq (a b : ℚ) (hb : b ≠ 0) : qDiv a b = a / b := by
  have hbn : (b.num : ℚ) ≠ 0 := by
    exact_mod_cast Rat.num_ne_zero.mpr hb
  have had : ((a.den : ℤ) : ℚ) ≠ 0 := by
    exact_mod_cast Int.ofNat_ne_zero.mpr a.den_nz
  have hbd : ((b.den : ℤ) : ℚ) ≠ 0 := by
    exact_mod_cast Int.ofNat_ne_zero.mpr b.den_nz
  unfold qDiv
  rw [Rat.divInt_eq_div]
  push_cast
  rw [div_eq_div_iff (by exact mul_ne_zero had hbn) hb]
  calc (a.num : ℚ) * (b.den : ℚ) * b
      = ((a.num : ℚ) / (a.den : ℚ)) * ((a.den : ℚ) * (b.den : ℚ) * b) := by
        field_simp
        ring
    _ = a * ((a.den : ℚ) * (b.den : ℚ) * b) := by rw [Rat.num_div_den]
    _ = a * ((a.den : ℚ) * ((b.num : ℚ) / (b.den : ℚ)) * (b.den : ℚ)) := by
        rw [Rat.num_div_den]; ring
    _ = a * ((a.den : ℚ) * (b.num : ℚ)) := by field_simp

namespace F

/-- Float addition: NaN propagates. -/
def add : F → F → F
  | val a, val b => val (qAdd a b)
  | _, _ => nan

/-- Float multiplication: NaN propagates. -/
def mul : F → F → F
  | val a, val b => val (qMul a b)
  | _, _ => nan

/-- Float division: NaN propagates, and division by zero yields NaN
(see the comment on `F`). -/
def div : F → F → F
  | val a, val b => if b = 0 then nan else val (qDiv a b)
  | _, _ => nan

/-- The comparison order used by `np.argsort` (ascending, NaN sorts last):
`leB a b` holds when `a` sorts no later than `b`. -/
def leB : F → F → Bool
  | val a, val b => decide (a ≤ b)
  | _, nan => true
  | nan, val _ => false

/-- Python's `score >= min_score` on a float score: false when the score is
NaN. -/
def geQ : F → ℚ → Bool
  | val a, m => decide (m ≤ a)
  | nan, _ => false

end F

/-- Largest `k ≤ fuel` with `k * k ≤ n` (straightforward structural search, so
that the kernel can evaluate it on the small concrete inputs used below). -/
def floorSqrtLoop : ℕ → ℕ → ℕ
  | 0, _ => 0
  | k + 1, n => if (k + 1) * (k + 1) ≤ n then k + 1 else floorSqrtLoop k n

/-- Integer square root: largest `k` with `k * k ≤ n`. -/
def floorSqrt (n : ℕ) : ℕ := floorSqrtLoop n n

/-- Exact square root of the rationals arising as squared norms in this
development (perfect squares over perfect squares); on those, IEEE `sqrt` is
exact as well, so this models `np.sqrt` faithfully on every input evaluated
here. -/
def ratSqrt (q : ℚ) : ℚ := mkRat (floorSqrt q.num.toNat : ℤ) (floorSqrt q.den)

/-- `np.sqrt` on the float model. -/
def sqrtF : F → F
  | F.nan => F.nan
  | F.val q => F.val (ratSqrt q)

/-- Sum of a list of floats (numpy reduction; starts from 0, NaN propagates). -/
def sumF (l : List F) : F := l.foldl F.add (F.val 0)

/-- `np.linalg.norm(v)`: square root of the sum of squares. -/
def normF (v : List F) : F := sqrtF (sumF (v.map (fun x => F.mul x x)))

/-- `np.dot` of two vectors: sum of elementwise products. -/
def dotF (u v : List F) : F := sumF ((u.zip v).map (fun p => F.mul p.1 p.2))

/-- Elementwise division of a vector by a scalar (numpy broadcasting, as in
`a / np.linalg.norm(a)`). -/
def vecScale (v : List F) (s : F) : List F := v.map (fun x => F.div x s)

/-- Embedding of `cosine_similarity` (src/embeddings.py lines 70-83):
normalize the query by its Euclidean norm, normalize each corpus row by its
own Euclidean norm, and return the dot product of each normalized row with
the normalized query. -/
def cosine_similarity (a : List F) (b : List (List F)) : List F :=
  let a_norm := vecScale a (normF a)
  let b_norm := b.map (fun row => vecScale row (normF row))
  b_norm.map (fun row => dotF row a_norm)

/-- A pattern record (src corpus entry: id, name, description, mood, tempo,
tags, code). -/
structure Pattern where
  id : String
  name : String
  description : String
  mood : String
  tempo : String
  tags : List String
  code : String
deriving DecidableEq

/-- Default pattern used only to give `List.getD` a value at indices that are
in range in every reachable state. -/
def defaultPattern : Pattern :=
  { id := "", name := "", description := "", mood := "", tempo := "",
    tags := [], code := "" }

/-- Embedding of `create_pattern_text` (src/embeddings.py lines 19-31). -/
def create_pattern_text (p : Pattern) : String :=
  String.intercalate " | "
    [p.name, p.description, "mood: " ++ p.mood, "tempo: " ++ p.tempo,
     "tags: " ++ String.intercalate ", " p.tags]

/-- Ordered insertion of index `i` into an index list sorted ascending by
`key`, keeping `i` after equal keys (stability). -/
def insertRank (key : ℕ → F) (i : ℕ) : List ℕ → List ℕ
  | [] => [i]
  | j :: rest =>
      if F.leB (key j) (key i) then j :: insertRank key i rest
      else i :: j :: rest

/-- Embedding of `np.argsort(similarities)`: the indices of the score list
sorted by ascending score (NaN last), modelled as a stable sort — numpy's
default sort is insertion sort on arrays of the sizes evaluated here, and for
distinct keys stability is irrelevant. -/
def argsortF (similarities : List F) : List ℕ :=
  (List.range similarities.length).foldl
    (fun acc i => insertRank (fun j => similarities.getD j F.nan) i acc) []

/-- Embedding of the Python slice `xs[:k]` for an arbitrary (possibly
negative) integer `k`. -/
def pythonSlice {α : Type} (k : ℤ) (xs : List α) : List α :=
  if 0 ≤ k then xs.take k.toNat else xs.take (xs.length - (-k).toNat)

/-- Embedding of the Python slice `xs[1:stop]`: same as dropping the first
element of `xs[:stop]`. -/
def pySliceFrom1 {α : Type} (stop : ℤ) (xs : List α) : List α :=
  (pythonSlice stop xs).drop 1

/-- The ranked index list of `search` (src/embeddings.py line 180):
`np.argsort(similarities)[::-1]` — indices by descending score. -/
def rankedIndices (similarities : List F) : List ℕ :=
  (argsortF similarities).reverse

/-- Embedding of the ranking part of `search` (src/embeddings.py lines
177-188), parameterized by the similarity scores (which the source computes
with the external embedding model and `cosine_similarity`): take the top-k
ranked indices, keep those whose score passes `min_score`, and return the
corresponding (pattern, score) pairs in ranked order. -/
def searchFrom (patterns : List Pattern) (similarities : List F)
    (top_k : ℤ) (min_score : ℚ) : List (Pattern × F) :=
  ((pythonSlice top_k (rankedIndices similarities)).filter
      (fun idx => F.geQ (similarities.getD idx F.nan) min_score)).map
    (fun idx => (patterns.getD idx defaultPattern, similarities.getD idx F.nan))

/-- Decidable equality for `Except`, used to evaluate the fallible
`get_similar_patterns` at concrete inputs. -/
instance {ε α : Type} [DecidableEq ε] [DecidableEq α] : DecidableEq (Except ε α) :=
  fun x y =>
    match x, y with
    | Except.error a, Except.error b =>
        if h : a = b then isTrue (congrArg Except.error h)
        else isFalse (fun hc => h (Except.error.inj hc))
    | Except.ok a, Except.ok b =>
        if h : a = b then isTrue (congrArg Except.ok h)
        else isFalse (fun hc => h (Except.ok.inj hc))
    | Except.error _, Except.ok _ => isFalse (fun hc => Except.noConfusion hc)
    | Except.ok _, Except.error _ => isFalse (fun hc => Except.noConfusion hc)

/-- Embedding of `get_similar_patterns` (src/embeddings.py lines 190-228),
with the index already built (the resident embedding matrix is passed in):
locate the record's row by a linear scan over the corpus, fail with the
"not found" ValueError message if absent, otherwise rank every row against
that row's own embedding and return the rows at ranked positions `[1:top_k+1]`
with their scores. -/
def get_similar_patterns (patterns : List Pattern) (embeddings : List (List F))
    (pattern_id : String) (top_k : ℤ) : Except String (List (Pattern × F)) :=
  match patterns.findIdx? (fun p => p.id = pattern_id) with
  | none => Except.error ("Pattern \x27" ++ pattern_id ++ "\x27 not found")
  | some idx =>
      let pattern_embedding := embeddings.getD idx []
      let similarities := cosine_similarity pattern_embedding embeddings
      let top_indices := pySliceFrom1 (top_k + 1) (rankedIndices similarities)
      Except.ok (top_indices.map
        (fun i => (patterns.getD i defaultPattern, similarities.getD i F.nan)))

/-- The mutable fields of a `PatternSearcher` instance: the loaded corpus,
the resident embedding matrix (None until built), and whether the embedding
model has been loaded. -/
structure SearcherState where
  patterns : List Pattern
  embeddings : Option (List (List F))
  model : Bool
deriving DecidableEq

/-- The persisted cache file: absent, unreadable (a pickle error, swallowed by
`_load_cache`), or a blob holding the stored id sequence and matrix. -/
inductive CacheFile where
  | absent : CacheFile
  | corrupt : CacheFile
  | blob : List String → List (List F) → CacheFile
deriving DecidableEq

/-- The world a `PatternSearcher` acts on: its in-memory state, the cache
file, and a counter of embedding-provider invocations (model loads and encode
calls), the observable of the spec's cache-hit test. -/
structure World where
  st : SearcherState
  file : CacheFile
  providerCalls : ℕ
deriving DecidableEq

/-- Embedding of `compute_embeddings` (src/embeddings.py lines 34-50) with the
external sentence-transformer abstracted as `enc`: encode the pattern texts in
corpus order. -/
def compute_embeddings (enc : List String → List (List F))
    (patterns : List Pattern) : List (List F) :=
  enc (patterns.map create_pattern_text)

/-- Embedding of `_load_cache` (src/embeddings.py lines 109-121): on a
readable blob whose stored id sequence equals the current corpus id sequence,
adopt the stored matrix and report success; otherwise (absent file, unreadable
file, or id mismatch) leave the state unchanged and report failure. -/
def loadCacheW (w : World) : World × Bool :=
  match w.file with
  | CacheFile.blob ids emb =>
      if ids = w.st.patterns.map Pattern.id then
        ({ w with st := { w.st with embeddings := some emb } }, true)
      else (w, false)
  | _ => (w, false)

/-- Embedding of `_save_cache` (src/embeddings.py lines 123-130): write the
current id sequence and resident matrix to the cache file. -/
def saveCacheW (w : World) : World :=
  { w with
    file := CacheFile.blob (w.st.patterns.map Pattern.id)
      (w.st.embeddings.getD []) }

/-- Embedding of `_ensure_model` (src/embeddings.py lines 132-136): load the
model on first use (counted as a provider invocation). -/
def ensureModel (w : World) : World :=
  if w.st.model then w
  else
    { w with
      providerCalls := w.providerCalls + 1,
      st := { w.st with model := true } }

/-- Embedding of `build_index` (src/embeddings.py lines 138-153): unless
forced, try the cache and return on a hit; otherwise load the model, compute
the full embedding matrix for the current corpus (one provider invocation),
adopt it and save the cache. -/
def build_index (enc : List String → List (List F)) (force : Bool)
    (w : World) : World :=
  if force = false ∧ (loadCacheW w).2 = true then (loadCacheW w).1
  else
    let w1 := ensureModel w
    let emb := compute_embeddings enc w1.st.patterns
    saveCacheW
      { w1 with
        providerCalls := w1.providerCalls + 1,
        st := { w1.st with embeddings := some emb } }

/-- Embedding of `search` (src/embeddings.py lines 155-188) with the external
encoders abstracted: lazily build the index if none is resident, ensure the
model is loaded, embed the query, score it against the resident matrix with
`cosine_similarity`, and rank/filter via `searchFrom`.  Returns the state the
call leaves behind together with the results. -/
def search (encOne : String → List F) (enc : List String → List (List F))
    (query : String) (top_k : ℤ) (min_score : ℚ) (w : World) :
    World × List (Pattern × F) :=
  let w1 := if w.st.embeddings = none then build_index enc false w else w
  let w2 := ensureModel w1
  let query_embedding := encOne query
  let similarities :=
    cosine_similarity query_embedding (w2.st.embeddings.getD [])
  (w2, searchFrom w2.st.patterns similarities top_k min_score)

/-- Restarting the Pattern Searcher (spec §8 cache round-trip scenario): a
fresh instance over the same corpus and cache file, with nothing resident, the
model not loaded, and the provider-call counter reset. -/
def freshWorld (w : World) : World :=
  { st := { patterns := w.st.patterns, embeddings := none, model := false },
    file := w.file, providerCalls := 0 }

section OrderLemmas

theorem F.leB_refl (a : F) : F.leB a a = true := by
  cases a <;> simp [F.leB]

theorem F.leB_total (a b : F) : F.leB a b = true ∨ F.leB b a = true := by
  cases a <;> cases b <;> simp [F.leB]
  exact le_total _ _

theorem F.leB_trans {a b c : F} (h1 : F.leB a b = true)
    (h2 : F.leB b c = true) : F.leB a c = true := by
  cases a <;> cases b <;> cases c <;> simp [F.leB] at h1 h2 ⊢
  exact le_trans h1 h2

theorem F.leB_antisymm {a b : F} (h1 : F.leB a b = true)
    (h2 : F.leB b a = true) : a = b := by
  cases a <;> cases b <;> simp [F.leB] at h1 h2 ⊢
  exact le_antisymm h1 h2

/-- The strict lexicographic order realized by reversing a stable ascending
argsort: strictly smaller key, or equal key and smaller original index. -/
def lexLT (key : ℕ → F) (i j : ℕ) : Prop :=
  (F.leB (key i) (key j) = true ∧ F.leB (key j) (key i) = false) ∨
  (key i = key j ∧ i < j)

theorem lexLT_of_strict {key : ℕ → F} {i j x : ℕ}
    (hs : F.leB (key i) (key j) = true ∧ F.leB (key j) (key i) = false)
    (h : lexLT key j x) : lexLT key i x := by
  rcases h with ⟨h1, h2⟩ | ⟨he, _⟩
  · left
    refine ⟨F.leB_trans hs.1 h1, ?_⟩
    by_contra hc
    rw [Bool.not_eq_false] at hc
    exact absurd (F.leB_trans h1 hc) (by simp [hs.2])
  · left
    rw [← he]
    exact hs

theorem lexLT_imp_leB {key : ℕ → F} {i j : ℕ} (h : lexLT key i j) :
    F.leB (key i) (key j) = true := by
  rcases h with ⟨h1, _⟩ | ⟨he, _⟩
  · exact h1
  · rw [he]
    exact F.leB_refl _

theorem insertRank_perm (key : ℕ → F) (i : ℕ) (l : List ℕ) :
    List.Perm (insertRank key i l) (i :: l) := by
  induction l with
  | nil => simp [insertRank]
  | cons j rest ih =>
      by_cases h : F.leB (key j) (key i) = true
      · rw [insertRank, if_pos h]
        exact (ih.cons j).trans (List.Perm.swap i j rest)
      · rw [insertRank, if_neg h]

theorem insertRank_mem {key : ℕ → F} {i x : ℕ} {l : List ℕ}
    (h : x ∈ insertRank key i l) : x = i ∨ x ∈ l := by
  have := (insertRank_perm key i l).mem_iff.mp h
  simpa using this

theorem insertRank_pairwise {key : ℕ → F} {i : ℕ} {l : List ℕ}
    (hlt : ∀ j ∈ l, j < i) (hp : List.Pairwise (lexLT key) l) :
    List.Pairwise (lexLT key) (insertRank key i l) := by
  induction l with
  | nil => simp [insertRank]
  | cons j rest ih =>
      rw [List.pairwise_cons] at hp
      obtain ⟨hj, hrest⟩ := hp
      by_cases h : F.leB (key j) (key i) = true
      · rw [insertRank, if_pos h]
        rw [List.pairwise_cons]
        constructor
        · intro x hx
          rcases insertRank_mem hx with rfl | hx'
          · by_cases h2 : F.leB (key x) (key j) = true
            · exact Or.inr ⟨F.leB_antisymm h h2, hlt j (List.mem_cons_self j rest)⟩
            · exact Or.inl ⟨h, by simpa using h2⟩
          · exact hj x hx'
        · exact ih (fun x hx => hlt x (List.mem_cons_of_mem j hx)) hrest
      · rw [insertRank, if_neg h]
        rw [List.pairwise_cons]
        have hstrict : F.leB (key i) (key j) = true ∧ F.leB (key j) (key i) = false := by
          rcases F.leB_total (key i) (key j) with h1 | h1
          · exact ⟨h1, by simpa using h⟩
          · exact absurd h1 h
        constructor
        · intro x hx
          rcases List.mem_cons.mp hx with rfl | hx'
          · exact Or.inl hstrict
          · exact lexLT_of_strict hstrict (hj x hx')
        · rw [List.pairwise_cons]
          exact ⟨hj, hrest⟩

theorem argsortF_spec (similarities : List F) :
    List.Perm (argsortF similarities) (List.range similarities.length) ∧
    List.Pairwise (lexLT (fun j => similarities.getD j F.nan))
      (argsortF similarities) := by
  unfold argsortF
  set key := fun j => similarities.getD j F.nan with hkey
  suffices h : ∀ n : ℕ,
      List.Perm ((List.range n).foldl (fun acc i => insertRank key i acc) []) (List.range n) ∧
      List.Pairwise (lexLT key)
        ((List.range n).foldl (fun acc i => insertRank key i acc) []) ∧
      (∀ j ∈ (List.range n).foldl (fun acc i => insertRank key i acc) [], j < n) by
    exact ⟨(h similarities.length).1, (h similarities.length).2.1⟩
  intro n
  induction n with
  | zero => simp
  | succ n ih =>
      obtain ⟨ihp, ihs, ihb⟩ := ih
      rw [List.range_succ, List.foldl_append]
      simp only [List.foldl_cons, List.foldl_nil]
      refine ⟨?_, ?_, ?_⟩
      · exact (insertRank_perm key n _).trans
          ((ihp.cons n).trans (List.perm_append_singleton n _).symm)
      · exact insertRank_pairwise ihb ihs
      · intro j hj
        rcases insertRank_mem hj with rfl | hj'
        · exact Nat.lt_succ_self j
        · exact Nat.lt_succ_of_lt (ihb j hj')

end OrderLemmas

section RankingLemmas

theorem rankedIndices_pairwise (sims : List F) :
    List.Pairwise (fun i j => lexLT (fun t => sims.getD t F.nan) j i)
      (rankedIndices sims) := by
  unfold rankedIndices
  rw [List.pairwise_reverse]
  exact (argsortF_spec sims).2

theorem rankedIndices_perm (sims : List F) :
    List.Perm (rankedIndices sims) (List.range sims.length) :=
  (List.reverse_perm _).trans (argsortF_spec sims).1

theorem rankedIndices_length (sims : List F) :
    (rankedIndices sims).length = sims.length := by
  rw [(rankedIndices_perm sims).length_eq, List.length_range]

theorem rankedIndices_mem (sims : List F) (i : ℕ) :
    i ∈ rankedIndices sims ↔ i < sims.length := by
  rw [(rankedIndices_perm sims).mem_iff, List.mem_range]

theorem pythonSlice_sublist {α : Type} (k : ℤ) (xs : List α) :
    List.Sublist (pythonSlice k xs) xs := by
  unfold pythonSlice
  split
  · exact List.take_sublist _ _
  · exact List.take_sublist _ _

theorem pythonSlice_length_le {α : Type} {k : ℤ} (h : 0 ≤ k) (xs : List α) :
    (pythonSlice k xs).length ≤ k.toNat := by
  unfold pythonSlice
  rw [if_pos h]
  simp [List.length_take]

theorem pythonSlice_of_length_le {α : Type} {k : ℤ} {xs : List α}
    (h : 0 ≤ k) (h2 : xs.length ≤ k.toNat) : pythonSlice k xs = xs := by
  unfold pythonSlice
  rw [if_pos h]
  exact List.take_of_length_le h2

end RankingLemmas

/-- C1: for every query scoring, every `top_k ≥ 0` and every `min_score`,
`search` returns at most `top_k` (pattern, score) pairs, sorted by
non-increasing score, each returned score a real value at or above
`min_score`; when `top_k` is at least the corpus size every record scoring at
or above the threshold is returned, and when no record meets `min_score` the
result is the empty sequence (not an error). -/
theorem search_result_contract (patterns : List Pattern) (sims : List F)
    (top_k : ℤ) (min_score : ℚ) (hk : 0 ≤ top_k) :
    (searchFrom patterns sims top_k min_score).length ≤ top_k.toNat ∧
    List.Pairwise (fun a b => F.leB b.2 a.2 = true)
      (searchFrom patterns sims top_k min_score) ∧
    (∀ pr ∈ searchFrom patterns sims top_k min_score,
        ∃ v, pr.2 = F.val v ∧ min_score ≤ v) ∧
    ((sims.length : ℤ) ≤ top_k → ∀ i, i < sims.length →
        F.geQ (sims.getD i F.nan) min_score = true →
        (patterns.getD i defaultPattern, sims.getD i F.nan)
          ∈ searchFrom patterns sims top_k min_score) ∧
    ((∀ i, i < sims.length → F.geQ (sims.getD i F.nan) min_score = false) →
        searchFrom patterns sims top_k min_score = []) := by
  refine ⟨?_, ?_, ?_, ?_, ?_⟩
  · unfold searchFrom
    rw [List.length_map]
    exact le_trans (List.length_filter_le _ _) (pythonSlice_length_le hk _)
  · unfold searchFrom
    rw [List.pairwise_map]
    have hp := List.Pairwise.filter
      (fun idx => F.geQ (sims.getD idx F.nan) min_score)
      (List.Pairwise.sublist (pythonSlice_sublist top_k (rankedIndices sims))
        (rankedIndices_pairwise sims))
    refine hp.imp ?_
    intro a b h
    exact lexLT_imp_leB h
  · intro pr hpr
    unfold searchFrom at hpr
    rw [List.mem_map] at hpr
    obtain ⟨idx, hidx, rfl⟩ := hpr
    rw [List.mem_filter] at hidx
    have hge := hidx.2
    rcases hget : sims.getD idx F.nan with _ | v
    · rw [hget] at hge
      simp [F.geQ] at hge
    · rw [hget] at hge
      refine ⟨v, rfl, ?_⟩
      simpa [F.geQ] using hge
  · intro hbig i hi hscore
    unfold searchFrom
    have hall : pythonSlice top_k (rankedIndices sims) = rankedIndices sims := by
      apply pythonSlice_of_length_le hk
      rw [rankedIndices_length]
      exact (Int.le_toNat hk).mpr hbig
    rw [hall]
    apply List.mem_map_of_mem
    rw [List.mem_filter]
    exact ⟨(rankedIndices_mem sims i).mpr hi, hscore⟩
  · intro hnone
    unfold searchFrom
    have : (pythonSlice top_k (rankedIndices sims)).filter
        (fun idx => F.geQ (sims.getD idx F.nan) min_score) = [] := by
      rw [List.filter_eq_nil_iff]
      intro idx hidx
      have hlt : idx < sims.length :=
        (rankedIndices_mem sims idx).mp ((pythonSlice_sublist _ _).subset hidx)
      rw [hnone idx hlt]
      simp
    rw [this, List.map_nil]

/-- C1 witness: the hypothesis `0 ≤ top_k` is satisfiable and the contract
evaluates at a concrete one-record corpus. -/
theorem search_result_contract_witness :
    (0 : ℤ) ≤ 1 ∧ (searchFrom [defaultPattern] [F.val 1] 1 0).length ≤ (1 : ℤ).toNat :=
  ⟨by decide, (search_result_contract [defaultPattern] [F.val 1] 1 0 (by decide)).1⟩

/-- Record used in concrete tie-breaking runs (corpus index 0). -/
def cxP0 : Pattern :=
  { id := "p0", name := "first", description := "", mood := "", tempo := "",
    tags := [], code := "" }

/-- Record used in concrete tie-breaking runs (corpus index 1). -/
def cxP1 : Pattern :=
  { id := "p1", name := "second", description := "", mood := "", tempo := "",
    tags := [], code := "" }

/-- C6 counterexample: on two rows with equal scores, `search` returns the row
with the LARGER corpus index first (the code reverses a stable ascending
argsort), contradicting the claimed tie-break by original corpus order. -/
theorem search_tie_counterexample :
    searchFrom [cxP0, cxP1] [F.val 1, F.val 1] 2 0
      = [(cxP1, F.val 1), (cxP0, F.val 1)] ∧
    searchFrom [cxP0, cxP1] [F.val 1, F.val 1] 2 0
      ≠ [(cxP0, F.val 1), (cxP1, F.val 1)] := by
  constructor
  · decide
  · decide

/-- C6 amended: the ranked order of `search` is descending in score, with ties
broken by DESCENDING corpus index (the larger index first), as produced by
reversing a stable ascending argsort. -/
theorem search_tie_order (sims : List F) :
    List.Pairwise (fun i j => lexLT (fun t => sims.getD t F.nan) j i)
      (rankedIndices sims) :=
  rankedIndices_pairwise sims

/-- C10: `search` with `top_k = 0` returns the empty sequence without error,
and a negative `top_k` is not rejected: by Python slice semantics the ranked
selection keeps all rows except the `-top_k` lowest-scoring ones, i.e. the
call behaves like a call with `top_k` replaced by `corpus size + top_k`
(clamped at zero). -/
theorem search_topk_edge (patterns : List Pattern) (sims : List F)
    (min_score : ℚ) :
    searchFrom patterns sims 0 min_score = [] ∧
    (∀ k : ℤ, k < 0 →
      searchFrom patterns sims k min_score
        = searchFrom patterns sims (((sims.length : ℤ) + k).toNat : ℤ)
            min_score) := by
  constructor
  · simp [searchFrom, pythonSlice]
  · intro k hk
    unfold searchFrom
    have hslice : pythonSlice k (rankedIndices sims)
        = pythonSlice (((sims.length : ℤ) + k).toNat : ℤ) (rankedIndices sims) := by
      unfold pythonSlice
      rw [if_neg (by omega), if_pos (by omega)]
      rw [rankedIndices_length]
      congr 1
      omega
    rw [hslice]

/-- C10 witness: the negative-`top_k` branch evaluated at a concrete input. -/
theorem search_topk_edge_witness :
    (-1 : ℤ) < 0 ∧
    searchFrom [] [F.val 1, F.val 2] (-1) 0
      = searchFrom [] [F.val 1, F.val 2]
          (((List.length [F.val 1, F.val 2] : ℤ) + (-1)).toNat : ℤ) 0 :=
  ⟨by decide, (search_topk_edge [] [F.val 1, F.val 2] 0).2 (-1) (by decide)⟩

/-- Record whose embedding text duplicates `dupB`'s (only the id and the
opaque code payload differ, neither of which enters `create_pattern_text`). -/
def dupA : Pattern :=
  { id := "a", name := "dup", description := "", mood := "", tempo := "",
    tags := [], code := "" }

/-- Record whose embedding text duplicates `dupA`'s. -/
def dupB : Pattern :=
  { id := "b", name := "dup", description := "", mood := "", tempo := "",
    tags := [], code := "" }

/-- C3 (code bug): with two records whose embeddings are identical rows,
`get_similar_patterns` on the first record's id returns that record itself —
the code drops the top-ranked position, not the record's own row, and on a
tie the reversed stable sort ranks the duplicate first. -/
theorem similar_includes_self_bug :
    get_similar_patterns [dupA, dupB]
        [[F.val 1, F.val 0], [F.val 1, F.val 0]] "a" 1
      = Except.ok [(dupA, F.val 1)] ∧
    dupA.id = "a" := by
  constructor
  · decide
  · decide

/-- C7: for a record id matching no corpus record, `get_similar_patterns`
raises the "not found" ValueError naming the id — an error outcome, never a
silently empty result. -/
theorem similar_unknown_id (patterns : List Pattern) (emb : List (List F))
    (pid : String) (top_k : ℤ) (h : ∀ p ∈ patterns, p.id ≠ pid) :
    get_similar_patterns patterns emb pid top_k
      = Except.error ("Pattern \x27" ++ pid ++ "\x27 not found") := by
  unfold get_similar_patterns
  have hnone : patterns.findIdx? (fun p => p.id = pid) = none := by
    rw [List.findIdx?_eq_none_iff]
    intro p hp
    simp [h p hp]
  rw [hnone]

/-- C7 witness: evaluated at a concrete unknown id. -/
theorem similar_unknown_id_witness :
    (∀ p ∈ [dupA], p.id ≠ "zzz") ∧
    get_similar_patterns [dupA] [[F.val 1]] "zzz" 5
      = Except.error ("Pattern \x27" ++ "zzz" ++ "\x27 not found") :=
  ⟨by decide, similar_unknown_id [dupA] [[F.val 1]] "zzz" 5 (by decide)⟩

section NanLemmas

theorem F.add_nan_left (y : F) : F.add F.nan y = F.nan := by
  cases y <;> rfl

theorem F.add_nan_right (x : F) : F.add x F.nan = F.nan := by
  cases x <;> rfl

theorem F.mul_nan_right (x : F) : F.mul x F.nan = F.nan := by
  cases x <;> rfl

theorem foldl_add_nan_acc (l : List F) : l.foldl F.add F.nan = F.nan := by
  induction l with
  | nil => rfl
  | cons x rest ih =>
      rw [List.foldl_cons, F.add_nan_left]
      exact ih

theorem foldl_add_nan_mem {l : List F} (h : F.nan ∈ l) :
    ∀ init : F, l.foldl F.add init = F.nan := by
  induction l with
  | nil => cases h
  | cons x rest ih =>
      intro init
      rcases List.mem_cons.mp h with rfl | hx
      · rw [List.foldl_cons, F.add_nan_right]
        exact foldl_add_nan_acc rest
      · rw [List.foldl_cons]
        exact ih hx _

theorem sumF_eq_nan_of_mem {l : List F} (h : F.nan ∈ l) : sumF l = F.nan :=
  foldl_add_nan_mem h _

theorem sumF_zeros {l : List F} (h : ∀ x ∈ l, x = F.val 0) :
    sumF l = F.val 0 := by
  unfold sumF
  induction l with
  | nil => rfl
  | cons x rest ih =>
      rw [List.foldl_cons, h x (List.mem_cons_self x rest)]
      have hadd : F.add (F.val 0) (F.val 0) = F.val 0 := by
        simp [F.add, qAdd_eq]
      rw [hadd]
      exact ih (fun y hy => h y (List.mem_cons_of_mem x hy))

theorem normF_zeros {v : List F} (h : ∀ x ∈ v, x = F.val 0) :
    normF v = F.val 0 := by
  unfold normF
  have hsq : ∀ x ∈ v.map (fun x => F.mul x x), x = F.val 0 := by
    intro x hx
    rw [List.mem_map] at hx
    obtain ⟨y, hy, rfl⟩ := hx
    rw [h y hy]
    simp [F.mul, qMul_eq]
  rw [sumF_zeros hsq]
  have h0 : ratSqrt 0 = 0 := by decide
  simp [sqrtF, h0]

theorem vecScale_zero_nan {v : List F} (h : ∀ x ∈ v, x = F.val 0) :
    ∀ y ∈ vecScale v (F.val 0), y = F.nan := by
  intro y hy
  rw [vecScale, List.mem_map] at hy
  obtain ⟨x, hx, rfl⟩ := hy
  rw [h x hx]
  simp [F.div]

theorem vecScale_ne_nil {v : List F} (h : v ≠ []) (s : F) :
    vecScale v s ≠ [] := by
  cases v with
  | nil => exact absurd rfl h
  | cons x rest => simp [vecScale]

theorem dotF_nan_right {u v : List F} (hu : u ≠ []) (hv : v ≠ [])
    (h : ∀ y ∈ v, y = F.nan) : dotF u v = F.nan := by
  unfold dotF
  apply sumF_eq_nan_of_mem
  rcases u with _ | ⟨x, xs⟩
  · exact absurd rfl hu
  rcases v with _ | ⟨y, ys⟩
  · exact absurd rfl hv
  rw [List.zip_cons_cons, List.map_cons]
  rw [h y (List.mem_cons_self y ys), F.mul_nan_right]
  exact List.mem_cons_self _ _

theorem dotF_nan_left {u v : List F} (hu : u ≠ []) (hv : v ≠ [])
    (h : ∀ x ∈ u, x = F.nan) : dotF u v = F.nan := by
  unfold dotF
  apply sumF_eq_nan_of_mem
  rcases u with _ | ⟨x, xs⟩
  · exact absurd rfl hu
  rcases v with _ | ⟨y, ys⟩
  · exact absurd rfl hv
  rw [List.zip_cons_cons, List.map_cons]
  rw [h x (List.mem_cons_self x xs)]
  have : F.mul F.nan y = F.nan := by cases y <;> rfl
  rw [this]
  exact List.mem_cons_self _ _

theorem getD_map_lt {β : Type} (f : List F → β) (l : List (List F)) (n : ℕ)
    (hn : n < l.length) (d : β) :
    (l.map f).getD n d = f (l.getD n []) := by
  have h1 : (l.map f)[n]? = some (f l[n]) := by
    rw [List.getElem?_map, List.getElem?_eq_getElem hn]
    rfl
  have h2 : l[n]? = some l[n] := List.getElem?_eq_getElem hn
  rw [List.getD_eq_getElem?_getD, h1, List.getD_eq_getElem?_getD, h2]
  rfl

end NanLemmas

/-- C4 counterexample: on the zero-norm query vector `[0]` against the corpus
row `[1]`, `cosine_similarity` emits NaN, not the claimed defined score 0. -/
theorem cosine_zero_counterexample :
    cosine_similarity [F.val 0] [[F.val 1]] = [F.nan] ∧
    F.nan ≠ F.val 0 := by
  constructor
  · decide
  · decide

/-- C4 amended: `cosine_similarity` has no division-by-zero guard — whenever
the (nonempty) query vector, or a nonempty corpus row, has zero Euclidean norm
(equivalently, is all zeros), the affected output entries are NaN, not the
defined fallback score 0. -/
theorem cosine_zero_norm_nan (a : List F) (b : List (List F)) (ha : a ≠ []) :
    ((∀ x ∈ a, x = F.val 0) → ∀ j, j < b.length → b.getD j [] ≠ [] →
        (cosine_similarity a b).getD j (F.val 0) = F.nan) ∧
    (∀ j, j < b.length → b.getD j [] ≠ [] → (∀ x ∈ b.getD j [], x = F.val 0) →
        (cosine_similarity a b).getD j (F.val 0) = F.nan) := by
  have hcos : ∀ j, j < b.length →
      (cosine_similarity a b).getD j (F.val 0)
        = dotF (vecScale (b.getD j []) (normF (b.getD j [])))
            (vecScale a (normF a)) := by
    intro j hj
    show ((b.map (fun row => vecScale row (normF row))).map
        (fun row => dotF row (vecScale a (normF a)))).getD j (F.val 0) = _
    rw [getD_map_lt _ _ j (by simpa using hj) _,
      getD_map_lt _ _ j hj _]
  constructor
  · intro hq j hj hrow
    rw [hcos j hj]
    apply dotF_nan_right (vecScale_ne_nil hrow _) (vecScale_ne_nil ha _)
    rw [normF_zeros hq]
    exact vecScale_zero_nan hq
  · intro j hj hrow hz
    rw [hcos j hj]
    apply dotF_nan_left (vecScale_ne_nil hrow _) (vecScale_ne_nil ha _)
    rw [normF_zeros hz]
    exact vecScale_zero_nan hz

/-- C4 witness: the amended theorem evaluated at a concrete zero vector. -/
theorem cosine_zero_norm_nan_witness :
    ([F.val 0] : List F) ≠ [] ∧
    (cosine_similarity [F.val 0] [[F.val 0]]).getD 0 (F.val 0) = F.nan :=
  ⟨by decide,
    (cosine_zero_norm_nan [F.val 0] [[F.val 0]] (by decide)).1
      (by decide) 0 (by decide) (by decide)⟩

section WorldLemmas

theorem ensureModel_patterns (w : World) :
    (ensureModel w).st.patterns = w.st.patterns := by
  unfold ensureModel
  split <;> rfl

theorem ensureModel_embeddings (w : World) :
    (ensureModel w).st.embeddings = w.st.embeddings := by
  unfold ensureModel
  split <;> rfl

theorem ensureModel_calls_ge (w : World) :
    w.providerCalls ≤ (ensureModel w).providerCalls := by
  unfold ensureModel
  split
  · exact le_refl _
  · exact Nat.le_succ _

theorem build_index_adopt (enc : List String → List (List F)) (w : World)
    (h : (loadCacheW w).2 = true) :
    build_index enc false w = (loadCacheW w).1 := by
  unfold build_index
  rw [if_pos ⟨rfl, h⟩]

theorem build_index_rebuild (enc : List String → List (List F)) (w : World)
    (force : Bool) (h : force = true ∨ (loadCacheW w).2 = false) :
    build_index enc force w
      = saveCacheW { ensureModel w with
          providerCalls := (ensureModel w).providerCalls + 1,
          st := { (ensureModel w).st with
            embeddings :=
              some (compute_embeddings enc (ensureModel w).st.patterns) } } := by
  unfold build_index
  rw [if_neg ?_]
  rcases h with h | h
  · rw [h]
    simp
  · rw [h]
    simp

theorem loadCacheW_true {w : World} (h : (loadCacheW w).2 = true) :
    ∃ emb, w.file = CacheFile.blob (w.st.patterns.map Pattern.id) emb ∧
      (loadCacheW w).1
        = { w with st := { w.st with embeddings := some emb } } := by
  unfold loadCacheW at h ⊢
  cases hfile : w.file with
  | absent =>
      rw [hfile] at h
      simp at h
  | corrupt =>
      rw [hfile] at h
      simp at h
  | blob ids emb =>
      by_cases hid : ids = w.st.patterns.map Pattern.id
      · subst hid
        refine ⟨emb, rfl, ?_⟩
        simp
      · rw [hfile] at h
        simp [hid] at h

theorem build_index_post (enc : List String → List (List F)) (force : Bool)
    (w : World) :
    ∃ M, (build_index enc force w).file
        = CacheFile.blob (w.st.patterns.map Pattern.id) M ∧
      (build_index enc force w).st.embeddings = some M ∧
      (build_index enc force w).st.patterns = w.st.patterns := by
  by_cases h : force = false ∧ (loadCacheW w).2 = true
  · obtain ⟨hf, hl⟩ := h
    subst hf
    rw [build_index_adopt enc w hl]
    obtain ⟨emb, hfile, hres⟩ := loadCacheW_true hl
    rw [hres]
    exact ⟨emb, by simp [hfile], by simp, by simp⟩
  · have hcase : force = true ∨ (loadCacheW w).2 = false := by
      by_cases hf : force = false
      · right
        by_cases hl : (loadCacheW w).2 = true
        · exact absurd ⟨hf, hl⟩ h
        · simpa using hl
      · left
        simpa using hf
    rw [build_index_rebuild enc w force hcase]
    refine ⟨compute_embeddings enc w.st.patterns, ?_, ?_, ?_⟩
    · simp [saveCacheW, ensureModel_patterns]
    · simp [saveCacheW, ensureModel_patterns]
    · simp [saveCacheW, ensureModel_patterns]

end WorldLemmas

/-- C2: given a readable persisted cache blob, `build_index` without `force`
adopts it exactly when its stored id sequence equals, element for element and
in order, the current corpus id sequence (and then changes nothing else); any
difference rejects the whole cache and triggers a full recomputation of the
embedding matrix through the provider. -/
theorem build_cache_validity (enc : List String → List (List F)) (w : World)
    (ids : List String) (emb : List (List F))
    (hfile : w.file = CacheFile.blob ids emb) :
    (ids = w.st.patterns.map Pattern.id →
      build_index enc false w
        = { w with st := { w.st with embeddings := some emb } }) ∧
    (ids ≠ w.st.patterns.map Pattern.id →
      (build_index enc false w).st.embeddings
          = some (compute_embeddings enc w.st.patterns) ∧
      w.providerCalls < (build_index enc false w).providerCalls) := by
  constructor
  · intro heq
    have hload : loadCacheW w
        = ({ w with st := { w.st with embeddings := some emb } }, true) := by
      unfold loadCacheW
      rw [hfile]
      simp [heq]
    rw [build_index_adopt enc w (by rw [hload])]
    rw [hload]
  · intro hne
    have hload : loadCacheW w = (w, false) := by
      unfold loadCacheW
      rw [hfile]
      simp [hne]
    rw [build_index_rebuild enc w false (Or.inr (by rw [hload]))]
    constructor
    · simp [saveCacheW, ensureModel_patterns]
    · have := ensureModel_calls_ge w
      simp [saveCacheW]
      omega

/-- A concrete stand-in embedding provider used only in witnesses. -/
def encConst : List String → List (List F) :=
  fun texts => texts.map (fun _ => [F.val 1])

/-- A concrete stand-in query encoder used only in witnesses. -/
def encConstOne : String → List F := fun _ => [F.val 1]

/-- A concrete world holding a valid persisted cache for its corpus. -/
def cacheWorld : World :=
  { st := { patterns := [dupA], embeddings := none, model := false },
    file := CacheFile.blob ["a"] [[F.val 1]], providerCalls := 0 }

/-- C2 witness: the adoption branch evaluated on a concrete matching cache. -/
theorem build_cache_validity_witness :
    cacheWorld.file = CacheFile.blob ["a"] [[F.val 1]] ∧
    build_index encConst false cacheWorld
      = { cacheWorld with
          st := { cacheWorld.st with embeddings := some [[F.val 1]] } } :=
  ⟨rfl,
    (build_cache_validity encConst cacheWorld ["a"] [[F.val 1]] rfl).1
      (by decide)⟩

/-- C5: after `build_index` completes against a corpus, a fresh Pattern
Searcher over the same corpus and the resulting cache file has its
`build_index` (without `force`) adopt the cached matrix and return with zero
provider invocations — no model load and no embedding computation. -/
theorem build_cache_roundtrip (enc : List String → List (List F))
    (force : Bool) (w : World) :
    (build_index enc false (freshWorld (build_index enc force w))).providerCalls
        = 0 ∧
    (build_index enc false (freshWorld (build_index enc force w))).st.model
        = false ∧
    (build_index enc false (freshWorld (build_index enc force w))).st.embeddings
        = (build_index enc force w).st.embeddings := by
  obtain ⟨M, hfile, hemb, hpat⟩ := build_index_post enc force w
  set w1 := build_index enc force w with hw1
  have hload2 : loadCacheW (freshWorld w1)
      = ({ freshWorld w1 with
            st := { (freshWorld w1).st with embeddings := some M } }, true) := by
    unfold loadCacheW freshWorld
    rw [hfile]
    simp [hpat]
  rw [build_index_adopt enc (freshWorld w1) (by rw [hload2]), hload2]
  exact ⟨rfl, rfl, hemb.symm⟩

/-- C9: with a resident embedding matrix, `search` leaves the searcher's
pattern list and resident matrix unchanged (it does not mutate the index),
and the similarity function is deterministic on identical inputs. -/
theorem search_readonly (encOne : String → List F)
    (enc : List String → List (List F)) (query : String) (top_k : ℤ)
    (min_score : ℚ) (w : World) (M : List (List F))
    (hM : w.st.embeddings = some M) :
    (search encOne enc query top_k min_score w).1.st.patterns
        = w.st.patterns ∧
    (search encOne enc query top_k min_score w).1.st.embeddings = some M ∧
    (∀ a₁ a₂ b₁ b₂, a₁ = a₂ → b₁ = b₂ →
      cosine_similarity a₁ b₁ = cosine_similarity a₂ b₂) := by
  have hne : ¬(w.st.embeddings = none) := by
    rw [hM]
    simp
  unfold search
  rw [if_neg hne]
  refine ⟨ensureModel_patterns w, ?_, ?_⟩
  · rw [ensureModel_embeddings]
    exact hM
  · intro a₁ a₂ b₁ b₂ h1 h2
    rw [h1, h2]

/-- A concrete world whose index is already resident. -/
def residentWorld : World :=
  { st := { patterns := [dupA], embeddings := some [[F.val 1]], model := false },
    file := CacheFile.absent, providerCalls := 0 }

/-- C9 witness: evaluated on a concrete resident index. -/
theorem search_readonly_witness :
    residentWorld.st.embeddings = some [[F.val 1]] ∧
    (search encConstOne encConst "query" 5 0 residentWorld).1.st.patterns
      = residentWorld.st.patterns :=
  ⟨rfl,
    (search_readonly encConstOne encConst "query" 5 0 residentWorld
      [[F.val 1]] rfl).1⟩

end StrudelAI
